import Mathlib

/-
  Shallow embedding of the minesweeper solver core (src/solver.rs, src/game.rs,
  src/app.rs).  Machine integers (usize, u8) are modelled as Nat; where Rust
  overflow/underflow behaviour matters it is modelled explicitly: u8 addition in
  Prediction::combine takes the sum mod 256 (release semantics), usize
  wrapping_sub in neighbour enumeration wraps mod 2^64, and "checked" variants
  of the fallible subtractions return Option (none = arithmetic panic in builds
  with overflow checks).  f32 probabilities are modelled as rationals (with the
  Lean convention q / 0 = 0 standing in for the float NaN/inf results, which
  the pipeline never stores into an output cell).
-/

namespace Mines

/-- Positions are (row, column) pairs, mirroring the (usize, usize) indices. -/
abbrev Pos := Nat × Nat

/-! ### bitvec_bitgrid::BitGrid (the implementation used by the solver) -/

/-- Model of `bitvec_bitgrid::BitGrid`: a flat bit store with a row stride. -/
structure BGrid where
  grid : List Bool
  stride : Nat
  deriving DecidableEq, Repr

/-- `BitGrid::empty`: `size.0 * size.1` zero bits, stride `size.1`. -/
def BGrid.empty (size : Nat × Nat) : BGrid :=
  ⟨List.replicate (size.1 * size.2) false, size.2⟩

/-- `BitGrid::size`: count of set bits (`count_ones`). -/
def BGrid.size (g : BGrid) : Nat := g.grid.count true

/-- `BitGrid::set`: write the bit at `pos.0 * stride + pos.1`. -/
def BGrid.set (g : BGrid) (pos : Pos) (value : Bool) : BGrid :=
  { g with grid := g.grid.set (pos.1 * g.stride + pos.2) value }

/-- `BitGrid::index`: read the bit at `pos.0 * stride + pos.1`. -/
def BGrid.get (g : BGrid) (pos : Pos) : Bool :=
  g.grid.getD (pos.1 * g.stride + pos.2) false

/-- `BitGrid::indices`: `iter_ones` mapped through `i ↦ (i / stride, i % stride)`. -/
def BGrid.indices (g : BGrid) : List Pos :=
  g.grid.enum.filterMap (fun p => if p.2 then some (p.1 / g.stride, p.1 % g.stride) else none)

/-- `BitGrid::with_indices`: set every listed position to true. -/
def BGrid.with_indices (g : BGrid) (ps : List Pos) : BGrid :=
  ps.foldl (fun g p => g.set p true) g

/-- `&` on bit grids: pointwise and, keeping the left stride. -/
def BGrid.and (a b : BGrid) : BGrid :=
  ⟨List.zipWith Bool.and a.grid b.grid, a.stride⟩

/-- `|` on bit grids: pointwise or, keeping the left stride. -/
def BGrid.or (a b : BGrid) : BGrid :=
  ⟨List.zipWith Bool.or a.grid b.grid, a.stride⟩

/-- `!` on bit grids: complement every stored bit. -/
def BGrid.notg (a : BGrid) : BGrid :=
  ⟨a.grid.map Bool.not, a.stride⟩

/-- Membership test equivalent to `pos ∈ indices()`: the column must be a
canonical column (below the stride) and the addressed bit must be set. -/
def BGrid.memPos (g : BGrid) (pos : Pos) : Bool :=
  decide (pos.2 < g.stride) && g.get pos

/-! ### Prediction (solver.rs lines 10-46) -/

/-- Model of `Prediction`; the f32 probability is a rational, the u8 weight a
Nat whose arithmetic is taken mod 256 where the code adds weights. -/
inductive Prediction where
  | contradiction : Prediction
  | free : Prediction
  | mine : Prediction
  | probability : ℚ → Nat → Prediction
  deriving DecidableEq, Repr

/-- `Prediction::combine`, arm for arm from the Rust match.  The u8 weight sum
`n1 + n2` wraps mod 256 (release semantics; debug builds would panic instead);
the division by a zero weight is the rational 0 where the float code would
produce NaN/inf. -/
def Prediction.combine : Prediction → Prediction → Prediction
  | .contradiction, _ => .contradiction
  | _, .contradiction => .contradiction
  | .free, .mine => .contradiction
  | .mine, .free => .contradiction
  | .free, .free => .free
  | .mine, .mine => .mine
  | .free, .probability _ _ => .free
  | .mine, .probability _ _ => .mine
  | .probability _ _, .free => .free
  | .probability _ _, .mine => .mine
  | .probability p1 n1, .probability p2 n2 =>
    let n := (n1 + n2) % 256
    .probability ((p1 * (n1 : ℚ) + p2 * (n2 : ℚ)) / (n : ℚ)) n

/-- `Prediction::from_probability`. -/
def Prediction.from_probability (prob : ℚ) : Prediction :=
  if prob = 0 then .free
  else if prob = 1 then .mine
  else .probability prob 0

/-- The u8 weight carried by a Prediction (0 for the certainty variants). -/
def Prediction.weight : Prediction → Nat
  | .probability _ n => n
  | _ => 0

/-! ### game.rs: cells, fields, neighbour enumeration -/

/-- Model of `CellState`. -/
inductive CellState where
  | unrevealed : CellState
  | flagged : CellState
  | revealed : CellState
  | exploded : CellState
  | empty : CellState
  deriving DecidableEq, Repr

/-- Model of `Cell` (the `neighbors` u8 as a Nat). -/
structure Cell where
  state : CellState
  neighbors : Nat
  mine : Bool
  deriving DecidableEq, Repr

/-- Model of `Field`: the board as a row-major list of rows (rectangular for
every board the program builds).  The rng / mine-count bookkeeping fields play
no role in prediction and are omitted. -/
structure Field where
  board : List (List Cell)
  deriving DecidableEq, Repr

/-- `Field::size`: (rows, columns). -/
def Field.dims (f : Field) : Nat × Nat :=
  (f.board.length, (f.board.headD []).length)

/-- Board lookup `field.board[pos]` (total; all uses are in bounds). -/
def Field.cellAt (f : Field) (p : Pos) : Cell :=
  (f.board.getD p.1 []).getD p.2 ⟨CellState.unrevealed, 0, false⟩

/-- All board positions in the row-major order of `indexed_iter`. -/
def Field.positions (f : Field) : List Pos :=
  (List.range f.dims.1).flatMap (fun i => (List.range f.dims.2).map (fun j => (i, j)))

/-- `Field::remaining_mines`: total mines minus total flags, saturating. -/
def Field.remaining_mines (f : Field) : Nat :=
  (f.board.flatten.countP (fun c => c.mine)) -
    (f.board.flatten.countP (fun c => decide (c.state = CellState.flagged)))

/-- The usize modulus: `wrapping_sub` in `neighbors` wraps at 2^64. -/
def usizeW : Nat := 2 ^ 64

/-- `x.wrapping_sub(1)` on usize. -/
def wsub1 (x : Nat) : Nat := (x + (usizeW - 1)) % usizeW

/-- `game::neighbors`: the eight candidate offsets in source order, keeping
those that are in bounds for the given dimensions. -/
def neighborsOf (dims : Nat × Nat) (p : Pos) : List Pos :=
  [ (wsub1 p.1, wsub1 p.2), (p.1, wsub1 p.2), (p.1 + 1, wsub1 p.2),
    (p.1 + 1, p.2), (p.1 + 1, p.2 + 1), (p.1, p.2 + 1),
    (wsub1 p.1, p.2 + 1), (wsub1 p.1, p.2) ].filter
    (fun q => decide (q.1 < dims.1) && decide (q.2 < dims.2))

/-! ### Region (solver.rs lines 101-221) -/

/-- Model of `Region`. -/
structure Region where
  region : BGrid
  size : Nat
  mines : Nat
  deriving DecidableEq, Repr

/-- `Region::is_clear`. -/
def Region.is_clear (r : Region) : Bool := decide (r.mines = 0)

/-- `Region::is_full`. -/
def Region.is_full (r : Region) : Bool := decide (r.size = r.mines)

/-- `Region::from_field_unrevealed`: the global region over all Unrevealed
cells, with the board's remaining-mine count. -/
def Region.from_field_unrevealed (f : Field) : Region :=
  let mask := (BGrid.empty f.dims).with_indices
    (f.positions.filter (fun p => decide ((f.cellAt p).state = CellState.unrevealed)))
  ⟨mask, mask.size, f.remaining_mines⟩

/-- `Region::from_cell_revealed`: a region per Revealed cell; Flagged
neighbours decrement the mine budget (Nat-truncated here; the checked variant
below models the panic in builds with overflow checks), Unrevealed neighbours
join the mask. -/
def Region.from_cell_revealed (f : Field) (p : Pos) : Option Region :=
  if (f.cellAt p).state = CellState.revealed then
    some ((neighborsOf f.dims p).foldl
      (fun r q =>
        match (f.cellAt q).state with
        | CellState.flagged => { r with mines := r.mines - 1 }
        | CellState.unrevealed =>
          { r with size := r.size + 1, region := r.region.set q true }
        | _ => r)
      ⟨BGrid.empty f.dims, 0, (f.cellAt p).neighbors⟩)
  else none

/-- `Region::split_overlap`: the central decomposition (solver.rs 175-220).
`saturating_sub` is Nat subtraction; the unchecked `size - overlap_size`
subtractions are also Nat subtraction (they cannot underflow when the stored
sizes match the mask cardinalities, which holds for every region the program
builds; the checked variant below tracks the panicking positions). -/
def Region.split_overlap (a b : Region) : Option (Region × Region × Region) :=
  let a_only := a.region.and b.region.notg
  let b_only := b.region.and a.region.notg
  let overlap := a.region.and b.region
  let overlap_size := overlap.size
  if overlap_size = 0 then none
  else
    let aLo := a.mines - (a.size - overlap_size)
    let aHi := min a.mines overlap_size
    let bLo := b.mines - (b.size - overlap_size)
    let bHi := min b.mines overlap_size
    if aLo = bHi then
      some (⟨a_only, a.size - overlap_size, a.mines - aLo⟩,
            ⟨overlap, overlap_size, aLo⟩,
            ⟨b_only, b.size - overlap_size, b.mines - aLo⟩)
    else if aHi = bLo then
      some (⟨a_only, a.size - overlap_size, a.mines - aHi⟩,
            ⟨overlap, overlap_size, aHi⟩,
            ⟨b_only, b.size - overlap_size, b.mines - aHi⟩)
    else none

/-! ### Checked arithmetic variants (panic = none) -/

/-- Checked usize subtraction: `none` models the panic of `a - b` with
overflow checks on when `b > a`. -/
def csub (a b : Nat) : Option Nat := if b ≤ a then some (a - b) else none

/-- `Region::from_cell_revealed` with the `mines -= 1` subtraction checked:
`none` = the construction panics, `some none` = cell not Revealed,
`some (some r)` = the region. -/
def Region.from_cell_revealedChk (f : Field) (p : Pos) : Option (Option Region) :=
  if (f.cellAt p).state = CellState.revealed then
    ((neighborsOf f.dims p).foldl
      (fun acc q =>
        match acc with
        | none => none
        | some r =>
          match (f.cellAt q).state with
          | CellState.flagged => (csub r.mines 1).map (fun m => { r with mines := m })
          | CellState.unrevealed =>
            some { r with size := r.size + 1, region := r.region.set q true }
          | _ => some r)
      (some ⟨BGrid.empty f.dims, 0, (f.cellAt p).neighbors⟩)).map some
  else some none

/-- `Region::split_overlap` with every unchecked subtraction checked, in
source order: `none` = panic, `some none` = no decomposition, `some (some t)`
= the three sibling regions. -/
def Region.split_overlapChk (a b : Region) : Option (Option (Region × Region × Region)) :=
  let a_only := a.region.and b.region.notg
  let b_only := b.region.and a.region.notg
  let overlap := a.region.and b.region
  let overlap_size := overlap.size
  if overlap_size = 0 then some none
  else
    match csub a.size overlap_size, csub b.size overlap_size with
    | some asz, some bsz =>
      let aLo := a.mines - asz
      let aHi := min a.mines overlap_size
      let bLo := b.mines - bsz
      let bHi := min b.mines overlap_size
      match (if aLo = bHi then some aLo else if aHi = bLo then some aHi else none) with
      | none => some none
      | some om =>
        match csub a.mines om, csub b.mines om with
        | some am, some bm =>
          some (some (⟨a_only, asz, am⟩, ⟨overlap, overlap_size, om⟩, ⟨b_only, bsz, bm⟩))
        | _, _ => none
    | _, _ => none

/-! ### predict (solver.rs lines 48-99) and app.rs get_predictions -/

/-- Initial region list: the global unrevealed region first, then one region
per Revealed cell in row-major order (solver.rs 49-56). -/
def initialRegions (f : Field) : List Region :=
  Region.from_field_unrevealed f :: f.positions.filterMap (Region.from_cell_revealed f)

/-- Initial region list with checked construction: `none` models a panic in
`from_cell_revealed`. -/
def initialRegionsChk (f : Field) : Option (List Region) :=
  (f.positions.foldr
    (fun p acc =>
      match Region.from_cell_revealedChk f p, acc with
      | none, _ => none
      | _, none => none
      | some none, some l => some l
      | some (some r), some l => some (r :: l))
    (some [])).map (fun l => Region.from_field_unrevealed f :: l)

/-- Scan of the inner `tuple_combinations` loop: find the first `b` in the
tail that `a` splits against, returning the tail with that `b` removed and
the three split results. -/
def scanWith (a : Region) : List Region → Option (List Region × (Region × Region × Region))
  | [] => none
  | b :: bs =>
    match a.split_overlap b with
    | some t => some (bs, t)
    | none => (scanWith a bs).map (fun r => (b :: r.1, r.2))

/-- One iteration of the fixed-point loop: on the first splittable pair (in
`tuple_combinations` order) remove both regions, append the non-size-0 split
results at the end of the list; `none` when no pair splits. -/
def step : List Region → Option (List Region)
  | [] => none
  | a :: rest =>
    match scanWith a rest with
    | some (rest', (r1, r2, r3)) =>
      some (rest' ++ ([r1, r2, r3].filter (fun r => r.size != 0)))
    | none => (step rest).map (fun l => a :: l)

/-- Termination measure of a single region: 3 to the mask cardinality. -/
def fmeas (r : Region) : Nat := 3 ^ (r.region.grid.count true)

/-- Termination measure of a region list. -/
def meas (l : List Region) : Nat := (l.map fmeas).sum

/-- Run up to `n` iterations of the loop, stopping at a fixed point. -/
def loopN : Nat → List Region → List Region
  | 0, l => l
  | n + 1, l =>
    match step l with
    | none => l
    | some l' => loopN n l'

/-- The fixed-point loop of `predict`; `meas l` iterations always suffice. -/
def runLoop (l : List Region) : List Region := loopN (meas l) l

/-- Probability assigned by a surviving region: `mines as f32 / size as f32`. -/
def probOf (r : Region) : ℚ := (r.mines : ℚ) / (r.size : ℚ)

/-- One finalization pass for one region (solver.rs 87-96), pointwise: on
each masked cell an unwritten cell gets the probability, an equal value is
kept, and a differing value is demoted to `Some(None)` (no single value). -/
def applyRegion (acc : Pos → Option (Option ℚ)) (r : Region) : Pos → Option (Option ℚ) :=
  fun p =>
    if r.region.memPos p then
      match acc p with
      | some (some q) => if q ≠ probOf r then some none else some (some q)
      | none => some (some (probOf r))
      | some none => some none
    else acc p

/-- The finalization fold over the surviving regions. -/
def finalize (l : List Region) : Pos → Option (Option ℚ) :=
  l.foldl applyRegion (fun _ => none)

/-- `predict`: per-cell optional probability after `Option::flatten`. -/
def predict (f : Field) : Pos → Option ℚ :=
  fun p => (finalize (runLoop (initialRegions f)) p).join

/-- `Field::get_predictions` (app.rs 283-289): map present probabilities
through `Prediction::from_probability`. -/
def getPredictions (f : Field) : Pos → Option Prediction :=
  fun p => (predict f p).map Prediction.from_probability

/-! ### Example boards used by the counterexamples and witnesses -/

/-- Shorthand for an unrevealed non-mine cell with stored count `n`. -/
def uc (n : Nat) : Cell := ⟨CellState.unrevealed, n, false⟩

/-- Shorthand for an unrevealed mine cell with stored count `n`. -/
def umc (n : Nat) : Cell := ⟨CellState.unrevealed, n, true⟩

/-- A consistent 3×3 board: (0,0) is Revealed with count 1, mines sit at
(1,1) and (2,2), everything else is Unrevealed.  The global region (8 cells,
2 mines) and the region of (0,0) (3 cells, 1 mine) survive the loop
unsplit (feasible ranges [0,2] and [1,1] share no endpoint) and disagree on
the probability of the three neighbour cells of (0,0). -/
def c1Field : Field :=
  ⟨[[⟨CellState.revealed, 1, false⟩, uc 1, uc 1],
    [uc 1, umc 1, uc 2],
    [uc 1, uc 2, umc 1]]⟩

/-- A 1×2 board: (0,0) Revealed with count 1, (0,1) a Flagged mine.  Both
initial regions (the global one and the one of cell (0,0)) have size 0. -/
def c2Field : Field :=
  ⟨[[⟨CellState.revealed, 1, false⟩, ⟨CellState.flagged, 0, true⟩]]⟩

/-- A malformed 1×2 board: (0,0) Revealed with stored count 0 but one
Flagged neighbour, so `mines -= 1` underflows during region construction. -/
def c3Field : Field :=
  ⟨[[⟨CellState.revealed, 0, false⟩, ⟨CellState.flagged, 0, false⟩]]⟩

/-! ### List helper lemmas -/

lemma count_true_cons (b : Bool) (l : List Bool) :
    (b :: l).count true = l.count true + b.toNat := by
  cases b <;> simp [List.count_cons]

lemma count_zipWith_and_le_left (l1 l2 : List Bool) :
    (List.zipWith Bool.and l1 l2).count true ≤ l1.count true := by
  induction l1 generalizing l2 with
  | nil => simp
  | cons x xs ih =>
    cases l2 with
    | nil => simp
    | cons y ys =>
      have h := ih ys
      simp only [List.zipWith_cons_cons, count_true_cons]
      cases x <;> cases y <;> simp only [Bool.and_self, Bool.and_false, Bool.false_and,
        Bool.and_true, Bool.true_and, Bool.toNat_true, Bool.toNat_false] <;> omega

lemma count_zipWith_and_le_right (l1 l2 : List Bool) :
    (List.zipWith Bool.and l1 l2).count true ≤ l2.count true := by
  induction l1 generalizing l2 with
  | nil => simp
  | cons x xs ih =>
    cases l2 with
    | nil => simp
    | cons y ys =>
      have h := ih ys
      simp only [List.zipWith_cons_cons, count_true_cons]
      cases x <;> cases y <;> simp only [Bool.and_self, Bool.and_false, Bool.false_and,
        Bool.and_true, Bool.true_and, Bool.toNat_true, Bool.toNat_false] <;> omega

lemma count_and_not_add_and_le (l1 l2 : List Bool) :
    (List.zipWith Bool.and l1 (l2.map Bool.not)).count true
      + (List.zipWith Bool.and l1 l2).count true ≤ l1.count true := by
  induction l1 generalizing l2 with
  | nil => simp
  | cons x xs ih =>
    cases l2 with
    | nil => simp
    | cons y ys =>
      have h := ih ys
      simp only [List.map_cons, List.zipWith_cons_cons, count_true_cons]
      cases x <;> cases y <;> simp only [Bool.not_true, Bool.not_false, Bool.and_self,
        Bool.and_false, Bool.false_and, Bool.and_true, Bool.true_and,
        Bool.toNat_true, Bool.toNat_false] <;> omega

/-- Fuse two zipWiths over the same pair of lists into one. -/
lemma zipWith_fuse (f g h : Bool → Bool → Bool) (l1 l2 : List Bool) :
    List.zipWith f (List.zipWith g l1 l2) (List.zipWith h l1 l2)
      = List.zipWith (fun x y => f (g x y) (h x y)) l1 l2 := by
  induction l1 generalizing l2 with
  | nil => simp
  | cons x xs ih => cases l2 <;> simp [ih]

/-- Pointwise-equal binary Bool functions give equal zipWiths. -/
lemma zipWith_congr_fn {f g : Bool → Bool → Bool} (h : ∀ x y, f x y = g x y)
    (l1 l2 : List Bool) : List.zipWith f l1 l2 = List.zipWith g l1 l2 := by
  induction l1 generalizing l2 with
  | nil => simp
  | cons x xs ih => cases l2 <;> simp [ih, h]

/-- A zipWith by a constant-false function has no true entries. -/
lemma count_zipWith_false {f : Bool → Bool → Bool} (hf : ∀ x y, f x y = false)
    (l1 l2 : List Bool) : (List.zipWith f l1 l2).count true = 0 := by
  induction l1 generalizing l2 with
  | nil => simp
  | cons x xs ih =>
    cases l2 with
    | nil => simp
    | cons y ys => simp [List.count_cons, ih, hf]

/-! ### C5: the combine rule table -/

/-- C5 (counterexample): the claim "two Probabilities yield their weighted
average with combined weight equal to the sum of the two weights" fails at
weights 128 and 128 — the u8 weight sum wraps to 0 (and the average is
divided by that wrapped 0), not 256 as the sum would require. -/
theorem c5_counterexample :
    Prediction.combine (.probability 1 128) (.probability 1 128)
        = .probability 0 0 ∧
      Prediction.probability (0 : ℚ) 0
        ≠ .probability (((1 : ℚ) * 128 + 1 * 128) / ((128 : ℚ) + 128)) (128 + 128) := by
  constructor
  · show Prediction.probability (((1 : ℚ) * (128:ℚ) + 1 * (128:ℚ)) / ((((128+128) % 256 : Nat)) : ℚ)) ((128+128) % 256) = .probability 0 0
    norm_num
  · intro h
    have := Prediction.probability.inj h
    omega

/-- C5 (amended): the rule table holds arm for arm, with the one correction
the counterexample forces: the combined weight of two Probabilities is the
u8-wrapped sum `(n1 + n2) % 256`, so the "weighted average with weight equal
to the sum" arm holds exactly as stated whenever the sum fits in a u8
(`n1 + n2 ≤ 255`). -/
theorem c5_amended :
    (∀ x, Prediction.combine .contradiction x = .contradiction) ∧
    (∀ x, Prediction.combine x .contradiction = .contradiction) ∧
    (Prediction.combine .free .mine = .contradiction) ∧
    (Prediction.combine .mine .free = .contradiction) ∧
    (Prediction.combine .free .free = .free) ∧
    (Prediction.combine .mine .mine = .mine) ∧
    (∀ p n, Prediction.combine .free (.probability p n) = .free ∧
            Prediction.combine (.probability p n) .free = .free ∧
            Prediction.combine .mine (.probability p n) = .mine ∧
            Prediction.combine (.probability p n) .mine = .mine) ∧
    (∀ p1 n1 p2 n2, n1 + n2 ≤ 255 →
      Prediction.combine (.probability p1 n1) (.probability p2 n2)
        = .probability ((p1 * n1 + p2 * n2) / ((n1 : ℚ) + n2)) (n1 + n2)) := by
  refine ⟨fun x => by cases x <;> rfl, fun x => by cases x <;> rfl,
    rfl, rfl, rfl, rfl, fun p n => ⟨rfl, rfl, rfl, rfl⟩, ?_⟩
  intro p1 n1 p2 n2 h
  show Prediction.probability _ ((n1 + n2) % 256) = _
  rw [Nat.mod_eq_of_lt (by omega)]
  push_cast
  rfl

/-- C5 (witness): the amended probability-averaging arm evaluated at the
spec-style example weights 2 and 2. -/
theorem c5_witness :
    Prediction.combine (.probability (1/2) 2) (.probability 1 2)
      = .probability (((1 : ℚ)/2 * 2 + 1 * 2) / ((2 : ℚ) + 2)) (2 + 2) := by
  have h := c5_amended.2.2.2.2.2.2.2 (1/2) 2 1 2 (by omega)
  simpa using h

/-! ### C4: commutativity and associativity of combine -/

/-- Multiplying a weighted average back by its (possibly zero) total weight
recovers the weighted sum; the zero-weight case works because both u8 weights
are then zero, making the weighted sum itself zero. -/
lemma avg_mul_weight (p q : ℚ) (m n : Nat) :
    (p * m + q * n) / ((m : ℚ) + n) * ((m : ℚ) + n) = p * m + q * n := by
  rcases Nat.eq_zero_or_pos (m + n) with h | h
  · obtain ⟨hm, hn⟩ : m = 0 ∧ n = 0 := by omega
    subst hm; subst hn
    norm_num
  · have hne : ((m : ℚ) + n) ≠ 0 := by
      have : (0 : ℚ) < (m : ℚ) + n := by exact_mod_cast h
      exact ne_of_gt this
    exact div_mul_cancel₀ _ hne

/-- C4 (counterexample): combine is not associative over all Predictions:
at weights 128, 128 and 1 the u8 weight sum wraps to 0 in one association
order but not the other, changing the resulting probability. -/
theorem c4_counterexample :
    Prediction.combine
        (Prediction.combine (.probability 1 128) (.probability 1 128)) (.probability 0 1)
      ≠ Prediction.combine
        (.probability 1 128) (Prediction.combine (.probability 1 128) (.probability 0 1)) := by
  intro h
  have h2 := (Prediction.probability.inj h).1
  norm_num [Prediction.combine] at h2

/-- C4 (amended): combine is commutative unconditionally, and associative
whenever the total weight fits in a u8 (`x.weight + y.weight + z.weight ≤
255`, so no weight sum wraps) — which covers in particular every Prediction
produced by `from_probability`, since those carry weight 0. -/
theorem c4_amended :
    (∀ x y : Prediction, x.combine y = y.combine x) ∧
    (∀ x y z : Prediction, x.weight + y.weight + z.weight ≤ 255 →
      (x.combine y).combine z = x.combine (y.combine z)) := by
  constructor
  · intro x y
    cases x <;> cases y <;> simp only [Prediction.combine]
    rename_i p1 n1 p2 n2
    rw [Nat.add_comm n2 n1, add_comm (p2 * (n2:ℚ))]
  · intro x y z h
    cases x <;> cases y <;> cases z <;>
      simp only [Prediction.combine, Prediction.weight] at h ⊢
    rename_i p1 n1 p2 n2 p3 n3
    rw [Nat.mod_eq_of_lt (show n1 + n2 < 256 by omega),
        Nat.mod_eq_of_lt (show n2 + n3 < 256 by omega),
        Nat.mod_eq_of_lt (show n1 + n2 + n3 < 256 by omega),
        Nat.mod_eq_of_lt (show n1 + (n2 + n3) < 256 by omega)]
    have hl : ((n1 + n2 : Nat) : ℚ) = (n1 : ℚ) + n2 := by push_cast; ring
    have hr : ((n2 + n3 : Nat) : ℚ) = (n2 : ℚ) + n3 := by push_cast; ring
    rw [hl, hr, avg_mul_weight, avg_mul_weight]
    congr 1
    · push_cast; ring_nf
    · omega

/-- C4 (witness): commutativity and in-range associativity evaluated at
concrete Predictions, including a weight-0 Probability from
`from_probability`. -/
theorem c4_witness :
    Prediction.combine (.probability (1/2) 0) .free
        = Prediction.combine .free (.probability (1/2) 0) ∧
      Prediction.combine
          (Prediction.combine (.probability (1/2) 1) (.probability (1/4) 1)) (.probability 1 2)
        = Prediction.combine
          (.probability (1/2) 1) (Prediction.combine (.probability (1/4) 1) (.probability 1 2)) :=
  ⟨c4_amended.1 _ _, c4_amended.2 _ _ _ (by norm_num [Prediction.weight])⟩

/-! ### C9: when split_overlap resolves a decomposition -/

lemma and_size_le_left (a b : BGrid) : (a.and b).size ≤ a.size :=
  count_zipWith_and_le_left a.grid b.grid

lemma and_size_le_right (a b : BGrid) : (a.and b).size ≤ b.size :=
  count_zipWith_and_le_right a.grid b.grid

/-- C9: for regions satisfying the invariant whose masks overlap,
`split_overlap` resolves exactly when the two feasible ranges
`[max(0, mines - (size - overlap_size)), min(mines, overlap_size)]` touch at
a shared endpoint (`a_range.start == b_range.end` or `a_range.end ==
b_range.start`), and the returned overlap region carries that shared
endpoint as its mine count; otherwise it returns nothing. -/
theorem c9_resolution (a b : Region)
    (hsa : a.size = a.region.size) (hsb : b.size = b.region.size)
    (hma : a.mines ≤ a.size) (hmb : b.mines ≤ b.size)
    (hk : 0 < (a.region.and b.region).size) :
    ((a.split_overlap b).isSome ↔
      (max 0 ((a.mines : ℤ) - ((a.size : ℤ) - ((a.region.and b.region).size : ℤ)))
          = min (b.mines : ℤ) ((a.region.and b.region).size : ℤ)
        ∨ min (a.mines : ℤ) ((a.region.and b.region).size : ℤ)
          = max 0 ((b.mines : ℤ) - ((b.size : ℤ) - ((a.region.and b.region).size : ℤ))))) ∧
    (∀ t, a.split_overlap b = some t →
      ((max 0 ((a.mines : ℤ) - ((a.size : ℤ) - ((a.region.and b.region).size : ℤ)))
           = min (b.mines : ℤ) ((a.region.and b.region).size : ℤ)
         ∧ (t.2.1.mines : ℤ)
           = max 0 ((a.mines : ℤ) - ((a.size : ℤ) - ((a.region.and b.region).size : ℤ))))
       ∨ (min (a.mines : ℤ) ((a.region.and b.region).size : ℤ)
           = max 0 ((b.mines : ℤ) - ((b.size : ℤ) - ((a.region.and b.region).size : ℤ)))
         ∧ (t.2.1.mines : ℤ)
           = min (a.mines : ℤ) ((a.region.and b.region).size : ℤ)))) := by
  have hka : (a.region.and b.region).size ≤ a.size := hsa ▸ and_size_le_left a.region b.region
  have hkb : (a.region.and b.region).size ≤ b.size := hsb ▸ and_size_le_right a.region b.region
  unfold Region.split_overlap
  rw [if_neg (by omega)]
  by_cases h1 : a.mines - (a.size - (a.region.and b.region).size)
      = min b.mines (a.region.and b.region).size
  · rw [if_pos h1]
    constructor
    · simp only [Option.isSome_some, true_iff]
      left; omega
    · intro t ht
      obtain rfl := Option.some.inj ht
      left
      constructor
      · omega
      · show ((a.mines - (a.size - (a.region.and b.region).size) : ℕ) : ℤ) = _
        omega
  · rw [if_neg h1]
    by_cases h2 : min a.mines (a.region.and b.region).size
        = b.mines - (b.size - (a.region.and b.region).size)
    · rw [if_pos h2]
      constructor
      · simp only [Option.isSome_some, true_iff]
        right; omega
      · intro t ht
        obtain rfl := Option.some.inj ht
        right
        constructor
        · omega
        · show ((min a.mines (a.region.and b.region).size : ℕ) : ℤ) = _
          omega
    · rw [if_neg h2]
      constructor
      · simp only [Option.isSome_none, Bool.false_eq_true, false_iff]
        have e1 : ((a.mines - (a.size - (a.region.and b.region).size) : ℕ) : ℤ)
            = max 0 ((a.mines : ℤ) - ((a.size : ℤ) - ((a.region.and b.region).size : ℤ))) := by
          omega
        have e2 : ((min b.mines (a.region.and b.region).size : ℕ) : ℤ)
            = min (b.mines : ℤ) ((a.region.and b.region).size : ℤ) := by omega
        have e3 : ((min a.mines (a.region.and b.region).size : ℕ) : ℤ)
            = min (a.mines : ℤ) ((a.region.and b.region).size : ℤ) := by omega
        have e4 : ((b.mines - (b.size - (a.region.and b.region).size) : ℕ) : ℤ)
            = max 0 ((b.mines : ℤ) - ((b.size : ℤ) - ((a.region.and b.region).size : ℤ))) := by
          omega
        rw [← e1, ← e2, ← e3, ← e4]
        rintro (hc | hc)
        · exact h1 (by exact_mod_cast hc)
        · exact h2 (by exact_mod_cast hc)
      · intro t ht
        exact absurd ht (by simp)

/-- The first witness region: 1×3 grid, cells {0,1}, 2 mines (spec §8). -/
def wregA : Region := ⟨⟨[true, true, false], 3⟩, 2, 2⟩

/-- The second witness region: 1×3 grid, cells {1,2}, 1 mine (spec §8). -/
def wregB : Region := ⟨⟨[false, true, true], 3⟩, 2, 1⟩

/-- C9 (witness): the theorem applied to the spec §8 scenario — the feasible
ranges [1,1] and [0,1] touch at the shared endpoint 1. -/
theorem c9_witness :
    ((wregA.split_overlap wregB).isSome ↔
      (max 0 ((wregA.mines : ℤ) - ((wregA.size : ℤ) - ((wregA.region.and wregB.region).size : ℤ)))
          = min (wregB.mines : ℤ) ((wregA.region.and wregB.region).size : ℤ)
        ∨ min (wregA.mines : ℤ) ((wregA.region.and wregB.region).size : ℤ)
          = max 0 ((wregB.mines : ℤ) - ((wregB.size : ℤ) - ((wregA.region.and wregB.region).size : ℤ))))) ∧
    (∀ t, wregA.split_overlap wregB = some t →
      ((max 0 ((wregA.mines : ℤ) - ((wregA.size : ℤ) - ((wregA.region.and wregB.region).size : ℤ)))
           = min (wregB.mines : ℤ) ((wregA.region.and wregB.region).size : ℤ)
         ∧ (t.2.1.mines : ℤ)
           = max 0 ((wregA.mines : ℤ) - ((wregA.size : ℤ) - ((wregA.region.and wregB.region).size : ℤ))))
       ∨ (min (wregA.mines : ℤ) ((wregA.region.and wregB.region).size : ℤ)
           = max 0 ((wregB.mines : ℤ) - ((wregB.size : ℤ) - ((wregA.region.and wregB.region).size : ℤ)))
         ∧ (t.2.1.mines : ℤ)
           = min (wregA.mines : ℤ) ((wregA.region.and wregB.region).size : ℤ)))) :=
  c9_resolution wregA wregB (by decide) (by decide) (by decide) (by decide) (by decide)

/-! ### C6: a successful split partitions the masks and conserves mines -/

/-- The three masks produced by `split_overlap` — `a AND NOT b`, `a AND b`,
`b AND NOT a` — are pairwise disjoint and union to `a OR b`, for any pair of
bit grids. -/
lemma split_masks_partition (A B : BGrid) :
    ((A.and B.notg).and (A.and B)).size = 0 ∧
    ((A.and B.notg).and (B.and A.notg)).size = 0 ∧
    ((A.and B).and (B.and A.notg)).size = 0 ∧
    (A.and B.notg).or ((A.and B).or (B.and A.notg)) = A.or B := by
  have e1 : (A.and B.notg).grid = List.zipWith (fun x y => x && !y) A.grid B.grid :=
    List.zipWith_map_right A.grid B.grid Bool.not Bool.and
  have e3 : (B.and A.notg).grid = List.zipWith (fun x y => y && !x) A.grid B.grid := by
    show List.zipWith Bool.and B.grid (A.grid.map Bool.not) = _
    rw [List.zipWith_map_right B.grid A.grid Bool.not Bool.and, List.zipWith_comm]
  refine ⟨?_, ?_, ?_, ?_⟩
  · show (List.zipWith Bool.and (A.and B.notg).grid (A.and B).grid).count true = 0
    rw [e1]
    show (List.zipWith Bool.and _ (List.zipWith Bool.and A.grid B.grid)).count true = 0
    rw [zipWith_fuse]
    exact count_zipWith_false (by decide) _ _
  · show (List.zipWith Bool.and (A.and B.notg).grid (B.and A.notg).grid).count true = 0
    rw [e1, e3, zipWith_fuse]
    exact count_zipWith_false (by decide) _ _
  · show (List.zipWith Bool.and (A.and B).grid (B.and A.notg).grid).count true = 0
    rw [e3]
    show (List.zipWith Bool.and (List.zipWith Bool.and A.grid B.grid) _).count true = 0
    rw [zipWith_fuse]
    exact count_zipWith_false (by decide) _ _
  · show BGrid.mk
        (List.zipWith Bool.or (A.and B.notg).grid
          (List.zipWith Bool.or (A.and B).grid (B.and A.notg).grid))
        (A.and B.notg).stride
      = BGrid.mk (List.zipWith Bool.or A.grid B.grid) A.stride
    rw [e1, e3]
    show BGrid.mk
        (List.zipWith Bool.or _ (List.zipWith Bool.or (List.zipWith Bool.and A.grid B.grid) _))
        A.stride = _
    rw [zipWith_fuse, zipWith_fuse,
      zipWith_congr_fn (f := fun x y => (x && !y) || ((x && y) || (y && !x)))
        (g := Bool.or) (by decide) A.grid B.grid]

/-- C6: whenever `split_overlap` succeeds on regions satisfying the
invariant, the three output masks are pairwise disjoint, their union is the
union of the two input masks, and both input mine counts are conserved. -/
theorem c6_partition (a b : Region)
    (_hsa : a.size = a.region.size) (_hsb : b.size = b.region.size)
    (_hma : a.mines ≤ a.size) (_hmb : b.mines ≤ b.size)
    (r1 r2 r3 : Region) (h : a.split_overlap b = some (r1, r2, r3)) :
    ((r1.region.and r2.region).size = 0 ∧ (r1.region.and r3.region).size = 0 ∧
      (r2.region.and r3.region).size = 0) ∧
    r1.region.or (r2.region.or r3.region) = a.region.or b.region ∧
    r1.mines + r2.mines = a.mines ∧ r3.mines + r2.mines = b.mines := by
  have masks := split_masks_partition a.region b.region
  unfold Region.split_overlap at h
  by_cases h0 : (a.region.and b.region).size = 0
  · rw [if_pos h0] at h
    exact absurd h (by simp)
  · rw [if_neg h0] at h
    by_cases h1 : a.mines - (a.size - (a.region.and b.region).size)
        = min b.mines (a.region.and b.region).size
    · rw [if_pos h1] at h
      simp only [Option.some.injEq, Prod.mk.injEq] at h
      obtain ⟨hr1, hr2, hr3⟩ := h
      subst hr1; subst hr2; subst hr3
      refine ⟨⟨masks.1, masks.2.1, masks.2.2.1⟩, masks.2.2.2, ?_, ?_⟩ <;>
        (dsimp only; omega)
    · rw [if_neg h1] at h
      by_cases h2 : min a.mines (a.region.and b.region).size
          = b.mines - (b.size - (a.region.and b.region).size)
      · rw [if_pos h2] at h
        simp only [Option.some.injEq, Prod.mk.injEq] at h
        obtain ⟨hr1, hr2, hr3⟩ := h
        subst hr1; subst hr2; subst hr3
        refine ⟨⟨masks.1, masks.2.1, masks.2.2.1⟩, masks.2.2.2, ?_, ?_⟩ <;>
          (dsimp only; omega)
      · rw [if_neg h2] at h
        exact absurd h (by simp)

/-- The three regions `wregA.split_overlap wregB` produces. -/
def wregR1 : Region := ⟨⟨[true, false, false], 3⟩, 1, 1⟩

/-- The overlap region of the witness split. -/
def wregR2 : Region := ⟨⟨[false, true, false], 3⟩, 1, 1⟩

/-- The b-only region of the witness split. -/
def wregR3 : Region := ⟨⟨[false, false, true], 3⟩, 1, 0⟩

/-- C6 (witness): the partition and conservation facts evaluated on the spec
§8 scenario split. -/
theorem c6_witness :
    ((wregR1.region.and wregR2.region).size = 0 ∧ (wregR1.region.and wregR3.region).size = 0 ∧
      (wregR2.region.and wregR3.region).size = 0) ∧
    wregR1.region.or (wregR2.region.or wregR3.region) = wregA.region.or wregB.region ∧
    wregR1.mines + wregR2.mines = wregA.mines ∧ wregR3.mines + wregR2.mines = wregB.mines :=
  c6_partition wregA wregB (by decide) (by decide) (by decide) (by decide)
    wregR1 wregR2 wregR3 (by decide)

/-! ### C7: split_overlap is symmetric up to labeling -/

/-- Intersection of bit grids commutes grid-wise. -/
lemma and_grid_comm (A B : BGrid) : (B.and A).grid = (A.and B).grid := by
  show List.zipWith Bool.and B.grid A.grid = List.zipWith Bool.and A.grid B.grid
  rw [List.zipWith_comm]
  exact zipWith_congr_fn (fun x y => Bool.and_comm y x) _ _

/-- One direction of the symmetry: a successful split of `a` against `b`
forces the mirrored split of `b` against `a`, with the a-only and b-only
regions exchanged and the identical overlap region in the middle. -/
lemma split_overlap_swap (a b : Region)
    (hst : a.region.stride = b.region.stride)
    (hsa : a.size = a.region.size) (hsb : b.size = b.region.size)
    (_hma : a.mines ≤ a.size) (_hmb : b.mines ≤ b.size)
    (r1 r2 r3 : Region) (h : a.split_overlap b = some (r1, r2, r3)) :
    b.split_overlap a = some (r3, r2, r1) := by
  have hka : (a.region.and b.region).size ≤ a.size := hsa ▸ and_size_le_left a.region b.region
  have hkb : (a.region.and b.region).size ≤ b.size := hsb ▸ and_size_le_right a.region b.region
  have hOv : b.region.and a.region = a.region.and b.region := by
    show BGrid.mk (b.region.and a.region).grid b.region.stride
      = BGrid.mk (a.region.and b.region).grid a.region.stride
    rw [and_grid_comm, hst]
  unfold Region.split_overlap at h ⊢
  rw [hOv]
  by_cases h0 : (a.region.and b.region).size = 0
  · rw [if_pos h0] at h
    exact absurd h (by simp)
  · rw [if_neg h0] at h
    rw [if_neg h0]
    by_cases h1 : a.mines - (a.size - (a.region.and b.region).size)
        = min b.mines (a.region.and b.region).size
    · rw [if_pos h1] at h
      simp only [Option.some.injEq, Prod.mk.injEq] at h
      obtain ⟨hr1, hr2, hr3⟩ := h
      subst hr1; subst hr2; subst hr3
      by_cases g1 : b.mines - (b.size - (a.region.and b.region).size)
          = min a.mines (a.region.and b.region).size
      · rw [if_pos g1]
        simp only [Option.some.injEq, Prod.mk.injEq, Region.mk.injEq, true_and, and_true]
        omega
      · rw [if_neg g1, if_pos (by omega)]
        simp only [Option.some.injEq, Prod.mk.injEq, Region.mk.injEq, true_and, and_true]
        omega
    · rw [if_neg h1] at h
      by_cases h2 : min a.mines (a.region.and b.region).size
          = b.mines - (b.size - (a.region.and b.region).size)
      · rw [if_pos h2] at h
        simp only [Option.some.injEq, Prod.mk.injEq] at h
        obtain ⟨hr1, hr2, hr3⟩ := h
        subst hr1; subst hr2; subst hr3
        rw [if_pos (by omega)]
        simp only [Option.some.injEq, Prod.mk.injEq, Region.mk.injEq, true_and, and_true]
        omega
      · rw [if_neg h2] at h
        exact absurd h (by simp)

/-- C7: for invariant-satisfying regions over the same grid,
`a.split_overlap b` succeeds exactly when `b.split_overlap a` does, and the
two results carry the same three masks (a-only/overlap/b-only, listed in the
mirrored order) with the same sizes and mine counts. -/
theorem c7_symmetric (a b : Region)
    (hst : a.region.stride = b.region.stride)
    (hsa : a.size = a.region.size) (hsb : b.size = b.region.size)
    (hma : a.mines ≤ a.size) (hmb : b.mines ≤ b.size) :
    ((a.split_overlap b).isSome ↔ (b.split_overlap a).isSome) ∧
    (∀ r1 r2 r3, a.split_overlap b = some (r1, r2, r3) →
      b.split_overlap a = some (r3, r2, r1)) := by
  constructor
  · constructor
    · intro hs
      obtain ⟨⟨r1, r2, r3⟩, ht⟩ := Option.isSome_iff_exists.mp hs
      rw [split_overlap_swap a b hst hsa hsb hma hmb r1 r2 r3 ht]
      rfl
    · intro hs
      obtain ⟨⟨r1, r2, r3⟩, ht⟩ := Option.isSome_iff_exists.mp hs
      rw [split_overlap_swap b a hst.symm hsb hsa hmb hma r1 r2 r3 ht]
      rfl
  · exact fun r1 r2 r3 h => split_overlap_swap a b hst hsa hsb hma hmb r1 r2 r3 h

/-- C7 (witness): the symmetry evaluated on the spec §8 scenario regions. -/
theorem c7_witness :
    ((wregA.split_overlap wregB).isSome ↔ (wregB.split_overlap wregA).isSome) ∧
    (∀ r1 r2 r3, wregA.split_overlap wregB = some (r1, r2, r3) →
      wregB.split_overlap wregA = some (r3, r2, r1)) :=
  c7_symmetric wregA wregB (by decide) (by decide) (by decide) (by decide) (by decide)

/-! ### C3: panic-freedom of the pipeline -/

/-- C3 (counterexample): the pipeline is not panic-free on malformed boards —
on `c3Field` (cell (0,0) Revealed with stored count 0 and one Flagged
neighbour) region construction underflows `mines -= 1`, so builds with
overflow checks panic before the solver loop starts; `none` is the checked
model's panic. -/
theorem c3_counterexample : initialRegionsChk c3Field = none := by decide

/-- C3 (amended): the split phase itself never panics: for any two regions
whose stored sizes equal their mask cardinalities — mine counts arbitrary,
in particular `mines > size` allowed — every unchecked subtraction inside
`split_overlap` is in range, so the checked model never returns the panic
value. -/
theorem c3_amended (a b : Region)
    (hsa : a.size = a.region.size) (hsb : b.size = b.region.size) :
    a.split_overlapChk b ≠ none := by
  have hka : (a.region.and b.region).size ≤ a.size := hsa ▸ and_size_le_left a.region b.region
  have hkb : (a.region.and b.region).size ≤ b.size := hsb ▸ and_size_le_right a.region b.region
  unfold Region.split_overlapChk
  by_cases h0 : (a.region.and b.region).size = 0
  · rw [if_pos h0]
    simp
  · rw [if_neg h0]
    have e1 : csub a.size (a.region.and b.region).size
        = some (a.size - (a.region.and b.region).size) := if_pos hka
    have e2 : csub b.size (a.region.and b.region).size
        = some (b.size - (a.region.and b.region).size) := if_pos hkb
    rw [e1, e2]
    dsimp only
    by_cases h1 : a.mines - (a.size - (a.region.and b.region).size)
        = min b.mines (a.region.and b.region).size
    · rw [if_pos h1]
      dsimp only
      have ea : csub a.mines (a.mines - (a.size - (a.region.and b.region).size))
          = some _ := if_pos (Nat.sub_le _ _)
      have eb : csub b.mines (a.mines - (a.size - (a.region.and b.region).size))
          = some _ := if_pos (by rw [h1]; exact min_le_left _ _)
      rw [ea, eb]
      simp
    · rw [if_neg h1]
      by_cases h2 : min a.mines (a.region.and b.region).size
          = b.mines - (b.size - (a.region.and b.region).size)
      · rw [if_pos h2]
        dsimp only
        have ea : csub a.mines (min a.mines (a.region.and b.region).size)
            = some _ := if_pos (min_le_left _ _)
        have eb : csub b.mines (min a.mines (a.region.and b.region).size)
            = some _ := if_pos (by rw [h2]; exact Nat.sub_le _ _)
        rw [ea, eb]
        simp
      · rw [if_neg h2]
        simp

/-- C3 (witness): the checked split applied to a malformed pair — both
regions hold one cell but claim 5 and 3 mines — returns the no-split value
rather than panicking. -/
theorem c3_witness :
    Region.split_overlapChk ⟨⟨[true], 1⟩, 1, 5⟩ ⟨⟨[true], 1⟩, 1, 3⟩ ≠ none :=
  c3_amended ⟨⟨[true], 1⟩, 1, 5⟩ ⟨⟨[true], 1⟩, 1, 3⟩ (by decide) (by decide)

/-! ### C2: size-0 regions in the active list -/

/-- The remainder list returned by `scanWith` only holds regions of the
scanned list. -/
lemma scanWith_subset (a : Region) (l l' : List Region) (t : Region × Region × Region)
    (h : scanWith a l = some (l', t)) : ∀ x ∈ l', x ∈ l := by
  induction l generalizing l' with
  | nil => simp [scanWith] at h
  | cons b bs ih =>
    unfold scanWith at h
    cases hsp : a.split_overlap b with
    | some u =>
      rw [hsp] at h
      simp only [Option.some.injEq, Prod.mk.injEq] at h
      intro x hx
      exact List.mem_cons_of_mem b (h.1 ▸ hx)
    | none =>
      rw [hsp] at h
      cases hsc : scanWith a bs with
      | none => rw [hsc] at h; simp at h
      | some pr =>
        obtain ⟨l'', t''⟩ := pr
        rw [hsc] at h
        simp only [Option.map_some', Option.some.injEq, Prod.mk.injEq] at h
        intro x hx
        rw [← h.1] at hx
        rcases List.mem_cons.mp hx with hb | hxl
        · exact hb ▸ List.mem_cons_self b bs
        · rw [h.2] at hsc
          exact List.mem_cons_of_mem b (ih l'' hsc x hxl)

/-- C2 (counterexample): the initial region construction does place size-0
regions in the active list — on `c2Field` (one Revealed cell whose only
neighbour is Flagged) both the global region and the revealed cell's region
enter the list with size 0. -/
theorem c2_counterexample : ∃ r ∈ initialRegions c2Field, r.size = 0 := by decide

/-- C2 (amended): the split-insertion step never adds a size-0 region: any
size-0 region present after a loop iteration was already in the list before
it (the filter on produced regions discards size 0), but the initial
construction is not covered, as the counterexample shows. -/
theorem c2_amended (l l' : List Region) (h : step l = some l') :
    ∀ r ∈ l', r.size = 0 → r ∈ l := by
  induction l generalizing l' with
  | nil => simp [step] at h
  | cons a rest ih =>
    unfold step at h
    cases hscan : scanWith a rest with
    | some pr =>
      obtain ⟨rest', ⟨r1, r2, r3⟩⟩ := pr
      rw [hscan] at h
      simp only [Option.some.injEq] at h
      intro r hr hsize
      rw [← h] at hr
      rcases List.mem_append.mp hr with hrest | hnew
      · exact List.mem_cons_of_mem a (scanWith_subset a rest rest' (r1, r2, r3) hscan r hrest)
      · have := List.of_mem_filter hnew
        simp [hsize] at this
    | none =>
      rw [hscan] at h
      cases hstep : step rest with
      | none => rw [hstep] at h; simp at h
      | some l'' =>
        rw [hstep] at h
        simp only [Option.map_some', Option.some.injEq] at h
        intro r hr hsize
        rw [← h] at hr
        rcases List.mem_cons.mp hr with ha | hl
        · exact ha ▸ List.mem_cons_self a rest
        · exact List.mem_cons_of_mem a (ih l'' hstep r hl hsize)

/-- C2 (witness): a loop iteration on two identical full one-cell regions
produces only the non-empty overlap region, and every size-0 region of the
output (there are none) was already in the input. -/
theorem c2_witness :
    step [⟨⟨[true], 1⟩, 1, 1⟩, ⟨⟨[true], 1⟩, 1, 1⟩] = some [⟨⟨[true], 1⟩, 1, 1⟩] ∧
    (∀ r ∈ ([⟨⟨[true], 1⟩, 1, 1⟩] : List Region), r.size = 0 →
      r ∈ ([⟨⟨[true], 1⟩, 1, 1⟩, ⟨⟨[true], 1⟩, 1, 1⟩] : List Region)) :=
  ⟨by decide, c2_amended _ _ (by decide)⟩

/-! ### C8: the fixed-point loop terminates -/

lemma meas_cons (r : Region) (l : List Region) : meas (r :: l) = fmeas r + meas l := by
  simp [meas]

lemma meas_append (l1 l2 : List Region) : meas (l1 ++ l2) = meas l1 + meas l2 := by
  simp [meas]

lemma meas_filter_le (p : Region → Bool) (l : List Region) :
    meas (l.filter p) ≤ meas l := by
  induction l with
  | nil => simp
  | cons a rest ih =>
    by_cases hp : p a = true
    · rw [List.filter_cons, if_pos hp, meas_cons, meas_cons]
      omega
    · rw [List.filter_cons, if_neg hp, meas_cons]
      omega

/-- A successful inner scan names the split partner and splits the measure. -/
lemma scanWith_found (a : Region) (l l' : List Region) (t : Region × Region × Region)
    (h : scanWith a l = some (l', t)) :
    ∃ b, a.split_overlap b = some t ∧ meas l = fmeas b + meas l' := by
  induction l generalizing l' with
  | nil => simp [scanWith] at h
  | cons b bs ih =>
    unfold scanWith at h
    cases hsp : a.split_overlap b with
    | some u =>
      rw [hsp] at h
      simp only [Option.some.injEq, Prod.mk.injEq] at h
      exact ⟨b, h.2 ▸ hsp, by rw [meas_cons, h.1]⟩
    | none =>
      rw [hsp] at h
      cases hsc : scanWith a bs with
      | none => rw [hsc] at h; simp at h
      | some pr =>
        obtain ⟨l'', t''⟩ := pr
        rw [hsc] at h
        simp only [Option.map_some', Option.some.injEq, Prod.mk.injEq] at h
        rw [h.2] at hsc
        obtain ⟨c, hc, hm⟩ := ih l'' hsc
        refine ⟨c, hc, ?_⟩
        rw [meas_cons, ← h.1, meas_cons, hm]
        omega

/-- Cardinality bookkeeping of a successful split: the a-only and b-only
masks lose exactly the overlap cells, the overlap is the middle mask, and
the overlap is non-empty. -/
lemma split_counts (a b : Region) (r1 r2 r3 : Region)
    (h : a.split_overlap b = some (r1, r2, r3)) :
    r1.region.grid.count true + (a.region.and b.region).size ≤ a.region.grid.count true ∧
    r2.region.grid.count true = (a.region.and b.region).size ∧
    r3.region.grid.count true + (a.region.and b.region).size ≤ b.region.grid.count true ∧
    0 < (a.region.and b.region).size := by
  have hcomm : (b.region.and a.region).grid.count true
      = (a.region.and b.region).grid.count true := by rw [and_grid_comm]
  unfold Region.split_overlap at h
  by_cases h0 : (a.region.and b.region).size = 0
  · rw [if_pos h0] at h
    exact absurd h (by simp)
  · rw [if_neg h0] at h
    have key : ∀ hr1 : r1.region = a.region.and b.region.notg,
        r2.region = a.region.and b.region → r3.region = b.region.and a.region.notg →
        r1.region.grid.count true + (a.region.and b.region).size
            ≤ a.region.grid.count true ∧
          r2.region.grid.count true = (a.region.and b.region).size ∧
          r3.region.grid.count true + (a.region.and b.region).size
            ≤ b.region.grid.count true ∧
          0 < (a.region.and b.region).size := by
      intro hr1 hr2 hr3
      refine ⟨?_, by rw [hr2]; rfl, ?_, by omega⟩
      · rw [hr1]
        exact count_and_not_add_and_le a.region.grid b.region.grid
      · rw [hr3]
        have := count_and_not_add_and_le b.region.grid a.region.grid
        show (List.zipWith Bool.and b.region.grid (a.region.grid.map Bool.not)).count true
            + (a.region.and b.region).size ≤ _
        have hsz : (a.region.and b.region).size
            = (List.zipWith Bool.and b.region.grid a.region.grid).count true := hcomm.symm
        omega
    by_cases h1 : a.mines - (a.size - (a.region.and b.region).size)
        = min b.mines (a.region.and b.region).size
    · rw [if_pos h1] at h
      simp only [Option.some.injEq, Prod.mk.injEq] at h
      exact key (by rw [← h.1]) (by rw [← h.2.1]) (by rw [← h.2.2])
    · rw [if_neg h1] at h
      by_cases h2 : min a.mines (a.region.and b.region).size
          = b.mines - (b.size - (a.region.and b.region).size)
      · rw [if_pos h2] at h
        simp only [Option.some.injEq, Prod.mk.injEq] at h
        exact key (by rw [← h.1]) (by rw [← h.2.1]) (by rw [← h.2.2])
      · rw [if_neg h2] at h
        exact absurd h (by simp)

/-- Strict decrease of the 3-power sum when two overlapping masks are
replaced by the three split parts. -/
lemma pow3_lt (x y k : Nat) (hk : 1 ≤ k) :
    3 ^ x + 3 ^ k + 3 ^ y < 3 ^ (x + k) + 3 ^ (y + k) := by
  have hA : 1 ≤ 3 ^ x := Nat.one_le_pow x 3 (by norm_num)
  have hB : 1 ≤ 3 ^ y := Nat.one_le_pow y 3 (by norm_num)
  have hC : 3 ≤ 3 ^ k := by
    calc 3 = 3 ^ 1 := by norm_num
    _ ≤ 3 ^ k := Nat.pow_le_pow_right (by norm_num) hk
  rw [pow_add, pow_add]
  obtain ⟨A, hA'⟩ := Nat.exists_eq_add_of_le hA
  obtain ⟨B, hB'⟩ := Nat.exists_eq_add_of_le hB
  obtain ⟨C, hC'⟩ := Nat.exists_eq_add_of_le hC
  rw [hA', hB', hC']
  nlinarith [Nat.zero_le (A * C), Nat.zero_le (B * C)]

/-- Every loop iteration strictly decreases the measure. -/
lemma step_meas_lt : ∀ l l', step l = some l' → meas l' < meas l := by
  intro l
  induction l with
  | nil => intro l' h; simp [step] at h
  | cons a rest ih =>
    intro l' h
    unfold step at h
    cases hscan : scanWith a rest with
    | some pr =>
      obtain ⟨rest', ⟨r1, r2, r3⟩⟩ := pr
      rw [hscan] at h
      simp only [Option.some.injEq] at h
      obtain ⟨b, hb, hm⟩ := scanWith_found a rest rest' (r1, r2, r3) hscan
      obtain ⟨c1, c2, c3, c4⟩ := split_counts a b r1 r2 r3 hb
      have hfil := meas_filter_le (fun r => r.size != 0) [r1, r2, r3]
      have h123 : meas [r1, r2, r3] = fmeas r1 + fmeas r2 + fmeas r3 := by
        simp [meas]
        omega
      have hklea : (a.region.and b.region).size ≤ a.region.grid.count true := by omega
      have hkleb : (a.region.and b.region).size ≤ b.region.grid.count true := by omega
      have hp1 : fmeas r1 ≤ 3 ^ (a.region.grid.count true - (a.region.and b.region).size) :=
        Nat.pow_le_pow_right (by norm_num) (by omega)
      have hp3 : fmeas r3 ≤ 3 ^ (b.region.grid.count true - (a.region.and b.region).size) :=
        Nat.pow_le_pow_right (by norm_num) (by omega)
      have hp2 : fmeas r2 = 3 ^ (a.region.and b.region).size := by rw [fmeas, c2]
      have hlt := pow3_lt (a.region.grid.count true - (a.region.and b.region).size)
        (b.region.grid.count true - (a.region.and b.region).size)
        (a.region.and b.region).size c4
      rw [Nat.sub_add_cancel hklea, Nat.sub_add_cancel hkleb] at hlt
      have hfa : fmeas a = 3 ^ (a.region.grid.count true) := rfl
      have hfb : fmeas b = 3 ^ (b.region.grid.count true) := rfl
      rw [← h, meas_append, meas_cons, hm]
      omega
    | none =>
      rw [hscan] at h
      cases hstep : step rest with
      | none => rw [hstep] at h; simp at h
      | some l'' =>
        rw [hstep] at h
        simp only [Option.map_some', Option.some.injEq] at h
        have := ih l'' hstep
        rw [← h, meas_cons, meas_cons]
        omega

lemma meas_eq_zero_iff_nil (l : List Region) (h : meas l = 0) : l = [] := by
  cases l with
  | nil => rfl
  | cons a rest =>
    exfalso
    have h1 : 1 ≤ fmeas a := Nat.one_le_pow _ 3 (by norm_num)
    rw [meas_cons] at h
    omega

/-- With fuel at least the measure, the loop reaches a fixed point. -/
lemma loopN_reaches_fix : ∀ n l, meas l ≤ n → step (loopN n l) = none := by
  intro n
  induction n with
  | zero =>
    intro l h
    have hnil : l = [] := meas_eq_zero_iff_nil l (by omega)
    subst hnil
    rfl
  | succ n ih =>
    intro l h
    unfold loopN
    cases hstep : step l with
    | none => exact hstep
    | some l' =>
      have := step_meas_lt l l' hstep
      exact ih l' (by omega)

/-- C8: for every board snapshot, the fixed-point loop of `predict`
terminates — after finitely many iterations (the measure of the initial
region list suffices as a bound) the region list reaches a state where no
pair of regions yields a decomposition. -/
theorem c8_terminates (f : Field) : step (runLoop (initialRegions f)) = none :=
  loopN_reaches_fix (meas (initialRegions f)) (initialRegions f) le_rfl

/-! ### C1: what a per-cell classification conflict produces -/

/-- Once a cell is marked `Some(None)` (no single value), the rest of the
finalization fold leaves it so. -/
lemma finalize_stick (l : List Region) (acc : Pos → Option (Option ℚ)) (p : Pos)
    (h : acc p = some none) : l.foldl applyRegion acc p = some none := by
  induction l generalizing acc with
  | nil => exact h
  | cons r rest ih =>
    apply ih
    show (if r.region.memPos p then _ else acc p) = some none
    by_cases hm : r.region.memPos p = true
    · rw [if_pos hm, h]
    · rw [if_neg hm]
      exact h

/-- If a cell already carries probability `q` and some later surviving
region covers it with a different probability, finalization marks it
`Some(None)`. -/
lemma finalize_conflict (l : List Region) (acc : Pos → Option (Option ℚ)) (p : Pos) (q : ℚ)
    (hacc : acc p = some (some q))
    (hex : ∃ r ∈ l, r.region.memPos p = true ∧ probOf r ≠ q) :
    l.foldl applyRegion acc p = some none := by
  induction l generalizing acc with
  | nil =>
    obtain ⟨r, hr, _⟩ := hex
    exact absurd hr (List.not_mem_nil r)
  | cons r rest ih =>
    show (rest.foldl applyRegion (applyRegion acc r)) p = some none
    obtain ⟨r', hr', hm', hq'⟩ := hex
    by_cases hm : r.region.memPos p = true
    · by_cases heq : probOf r = q
      · have hacc' : (applyRegion acc r) p = some (some q) := by
          show (if r.region.memPos p then _ else acc p) = some (some q)
          rw [if_pos hm, hacc]
          simp [heq]
        apply ih _ hacc'
        rcases List.mem_cons.mp hr' with rfl | hrest
        · exact absurd heq hq'
        · exact ⟨r', hrest, hm', hq'⟩
      · have hacc' : (applyRegion acc r) p = some none := by
          show (if r.region.memPos p then _ else acc p) = some none
          rw [if_pos hm, hacc]
          have hne : q ≠ probOf r := fun hh => heq hh.symm
          simp [hne]
        exact finalize_stick rest _ p hacc'
    · have hacc' : (applyRegion acc r) p = some (some q) := by
        show (if r.region.memPos p then _ else acc p) = some (some q)
        rw [if_neg hm]
        exact hacc
      apply ih _ hacc'
      rcases List.mem_cons.mp hr' with rfl | hrest
      · exact absurd hm' hm
      · exact ⟨r', hrest, hm', hq'⟩

/-- Two surviving regions covering the same cell with different
probabilities force the finalization fold to record `Some(None)` there. -/
lemma finalize_two (l : List Region) (acc : Pos → Option (Option ℚ)) (p : Pos)
    (hacc : acc p = none) (r1 r2 : Region) (h1 : r1 ∈ l) (h2 : r2 ∈ l)
    (hm1 : r1.region.memPos p = true) (hm2 : r2.region.memPos p = true)
    (hq : probOf r1 ≠ probOf r2) :
    l.foldl applyRegion acc p = some none := by
  induction l generalizing acc with
  | nil => exact absurd h1 (List.not_mem_nil _)
  | cons r rest ih =>
    show (rest.foldl applyRegion (applyRegion acc r)) p = some none
    by_cases hm : r.region.memPos p = true
    · have hacc' : (applyRegion acc r) p = some (some (probOf r)) := by
        show (if r.region.memPos p then _ else acc p) = some (some (probOf r))
        rw [if_pos hm, hacc]
      rcases List.mem_cons.mp h1 with rfl | h1t
      · rcases List.mem_cons.mp h2 with rfl | h2t
        · exact absurd rfl hq
        · exact finalize_conflict rest _ p (probOf r1) hacc' ⟨r2, h2t, hm2, Ne.symm hq⟩
      · rcases List.mem_cons.mp h2 with rfl | h2t
        · exact finalize_conflict rest _ p (probOf r2) hacc' ⟨r1, h1t, hm1, hq⟩
        · by_cases hc : probOf r1 = probOf r
          · refine finalize_conflict rest _ p (probOf r) hacc' ⟨r2, h2t, hm2, ?_⟩
            rw [← hc]
            exact Ne.symm hq
          · exact finalize_conflict rest _ p (probOf r) hacc' ⟨r1, h1t, hm1, hc⟩
    · have hacc' : (applyRegion acc r) p = none := by
        show (if r.region.memPos p then _ else acc p) = none
        rw [if_neg hm]
        exact hacc
      rcases List.mem_cons.mp h1 with rfl | h1t
      · exact absurd hm1 hm
      rcases List.mem_cons.mp h2 with rfl | h2t
      · exact absurd hm2 hm
      exact ih _ hacc' h1t h2t

/-- The surviving partition of the `c1Field` run: the global region (8 cells,
2 mines, probability 1/4) and the region of cell (0,0) (3 cells, 1 mine,
probability 1/3), never split because their feasible ranges [0,2] and [1,1]
share no endpoint. -/
lemma c1run_eq : runLoop (initialRegions c1Field) =
    [⟨⟨[false, true, true, true, true, true, true, true, true], 3⟩, 8, 2⟩,
     ⟨⟨[false, true, false, true, true, false, false, false, false], 3⟩, 3, 1⟩] := by
  decide

/-- C1 (counterexample): on the concrete board `c1Field` two surviving
regions of the final partition assign the different probabilities 1/4 and
1/3 to cell (1,1), yet the caller-facing output entry for that cell is
absent (`none`), not the Contradiction classification. -/
theorem c1_counterexample :
    (∃ r1 ∈ runLoop (initialRegions c1Field), ∃ r2 ∈ runLoop (initialRegions c1Field),
      r1.region.memPos (1, 1) = true ∧ r2.region.memPos (1, 1) = true ∧
      probOf r1 ≠ probOf r2) ∧
    getPredictions c1Field (1, 1) = none := by
  have hq : probOf (⟨⟨[false, true, true, true, true, true, true, true, true], 3⟩, 8, 2⟩ : Region)
      ≠ probOf (⟨⟨[false, true, false, true, true, false, false, false, false], 3⟩, 3, 1⟩ : Region) := by
    norm_num [probOf]
  constructor
  · refine ⟨_, by rw [c1run_eq]; exact List.mem_cons_self _ _,
      _, by rw [c1run_eq]; exact List.mem_cons_of_mem _ (List.mem_cons_self _ _),
      by decide, by decide, hq⟩
  · have hfin : finalize (runLoop (initialRegions c1Field)) (1, 1) = some none := by
      refine finalize_two _ _ (1, 1) rfl _ _ ?_ ?_ (by decide) (by decide) hq
      · rw [c1run_eq]
        exact List.mem_cons_self _ _
      · rw [c1run_eq]
        exact List.mem_cons_of_mem _ (List.mem_cons_self _ _)
    show ((finalize (runLoop (initialRegions c1Field)) (1, 1)).join).map
      Prediction.from_probability = none
    rw [hfin]
    rfl

/-- C1 (amended): a per-cell classification conflict — two surviving regions
of the final partition assigning the cell different probabilities — is
recorded as "no single value" during finalization and flattened away, so the
caller-facing grid entry for that cell is absent (`none`, never a
Contradiction and never one of the two values). -/
theorem c1_amended (f : Field) (p : Pos) (r1 r2 : Region)
    (h1 : r1 ∈ runLoop (initialRegions f)) (h2 : r2 ∈ runLoop (initialRegions f))
    (hm1 : r1.region.memPos p = true) (hm2 : r2.region.memPos p = true)
    (hq : probOf r1 ≠ probOf r2) :
    getPredictions f p = none := by
  have hfin : finalize (runLoop (initialRegions f)) p = some none :=
    finalize_two _ _ p rfl r1 r2 h1 h2 hm1 hm2 hq
  show ((finalize (runLoop (initialRegions f)) p).join).map Prediction.from_probability = none
  rw [hfin]
  rfl

/-- C1 (witness): the amended theorem applied to `c1Field` at cell (1,1). -/
theorem c1_witness : getPredictions c1Field (1, 1) = none :=
  c1_amended c1Field (1, 1)
    ⟨⟨[false, true, true, true, true, true, true, true, true], 3⟩, 8, 2⟩
    ⟨⟨[false, true, false, true, true, false, false, false, false], 3⟩, 3, 1⟩
    (by rw [c1run_eq]; exact List.mem_cons_self _ _)
    (by rw [c1run_eq]; exact List.mem_cons_of_mem _ (List.mem_cons_self _ _))
    (by decide) (by decide) (by norm_num [probOf])

/-! ### ndarray_bitgrid::BitGrid (the dense alternative) and C10 -/

/-- Model of `ndarray_bitgrid::BitGrid`: an `Array2<bool>` as a row-major
list of rows. -/
abbrev NGrid := List (List Bool)

/-- `BitGrid::empty` (ndarray): a `size.0 × size.1` all-false array. -/
def ngEmpty (d : Nat × Nat) : NGrid := List.replicate d.1 (List.replicate d.2 false)

/-- `BitGrid::size` (ndarray): iterate all elements (row-major) and count the
true ones. -/
def ngCard (g : NGrid) : Nat := g.flatten.count true

/-- `BitGrid::set` (ndarray): write the element at `(row, col)`. -/
def ngSet (g : NGrid) (p : Pos) (v : Bool) : NGrid :=
  g.set p.1 ((g.getD p.1 []).set p.2 v)

/-- `BitGrid::index` (ndarray): read the element at `(row, col)`. -/
def ngGet (g : NGrid) (p : Pos) : Bool := (g.getD p.1 []).getD p.2 false

/-- `BitGrid::indices` (ndarray): `indexed_iter` filtered to true positions,
in row-major order. -/
def ngIndices (g : NGrid) : List Pos :=
  g.enum.flatMap (fun r => r.2.enum.filterMap (fun c => if c.2 then some (r.1, c.1) else none))

/-- `BitGrid::with_indices` (ndarray). -/
def ngWith (g : NGrid) (ps : List Pos) : NGrid := ps.foldl (fun h p => ngSet h p true) g

/-- `&` on dense grids: elementwise and. -/
def ngAnd (g h : NGrid) : NGrid := List.zipWith (List.zipWith Bool.and) g h

/-- `|` on dense grids: elementwise or. -/
def ngOr (g h : NGrid) : NGrid := List.zipWith (List.zipWith Bool.or) g h

/-- `!` on dense grids: elementwise complement. -/
def ngNot (g : NGrid) : NGrid := g.map (List.map Bool.not)

/-- Expression language of the C10 claim: every finite sequence of `empty`,
`set`, `with_indices`, AND, OR and NOT operations over same-dimension
grids. -/
inductive GExpr where
  | emptyE : GExpr
  | setE : GExpr → Pos → Bool → GExpr
  | withE : GExpr → List Pos → GExpr
  | andE : GExpr → GExpr → GExpr
  | orE : GExpr → GExpr → GExpr
  | notE : GExpr → GExpr
  deriving DecidableEq, Repr

/-- Well-formedness for dimensions `d`: every written position is in
bounds. -/
def wfE (d : Nat × Nat) : GExpr → Bool
  | .emptyE => true
  | .setE e p _ => wfE d e && (decide (p.1 < d.1) && decide (p.2 < d.2))
  | .withE e ps => wfE d e && ps.all (fun p => decide (p.1 < d.1) && decide (p.2 < d.2))
  | .andE e1 e2 => wfE d e1 && wfE d e2
  | .orE e1 e2 => wfE d e1 && wfE d e2
  | .notE e => wfE d e

/-- Interpret an operation sequence in the dense (ndarray) implementation. -/
def evalN (d : Nat × Nat) : GExpr → NGrid
  | .emptyE => ngEmpty d
  | .setE e p v => ngSet (evalN d e) p v
  | .withE e ps => ngWith (evalN d e) ps
  | .andE e1 e2 => ngAnd (evalN d e1) (evalN d e2)
  | .orE e1 e2 => ngOr (evalN d e1) (evalN d e2)
  | .notE e => ngNot (evalN d e)

/-- Interpret an operation sequence in the packed (bitvec) implementation. -/
def evalB (d : Nat × Nat) : GExpr → BGrid
  | .emptyE => BGrid.empty d
  | .setE e p v => (evalB d e).set p v
  | .withE e ps => (evalB d e).with_indices ps
  | .andE e1 e2 => (evalB d e1).and (evalB d e2)
  | .orE e1 e2 => (evalB d e1).or (evalB d e2)
  | .notE e => (evalB d e).notg

/-- Simulation invariant: the packed grid's stride is the column count, the
dense grid has the right shape, and the packed bits are exactly the
flattened dense rows. -/
def RelNB (d : Nat × Nat) (g : NGrid) (bg : BGrid) : Prop :=
  bg.stride = d.2 ∧ g.length = d.1 ∧ (∀ row ∈ g, row.length = d.2) ∧ bg.grid = g.flatten

lemma flatten_replicate_replicate (a b : Nat) :
    (List.replicate a (List.replicate b false)).flatten = List.replicate (a * b) false := by
  induction a with
  | zero => simp
  | succ n ih =>
    rw [List.replicate_succ, List.flatten_cons, ih, ← List.replicate_add]
    congr 1
    ring

lemma rel_empty (d : Nat × Nat) : RelNB d (ngEmpty d) (BGrid.empty d) := by
  refine ⟨rfl, List.length_replicate .., ?_, ?_⟩
  · intro row hrow
    rw [List.eq_of_mem_replicate hrow]
    exact List.length_replicate ..
  · exact (flatten_replicate_replicate d.1 d.2).symm

lemma flatten_set (g : NGrid) (w r c : Nat) (v : Bool)
    (hrect : ∀ row ∈ g, row.length = w) (hr : r < g.length) (hc : c < w) :
    (g.set r ((g.getD r []).set c v)).flatten = g.flatten.set (r * w + c) v := by
  induction g generalizing r with
  | nil => simp at hr
  | cons row rest ih =>
    cases r with
    | zero =>
      have hrow : row.length = w := hrect row (List.mem_cons_self ..)
      show ((row.set c v) :: rest).flatten = (row ++ rest.flatten).set (0 * w + c) v
      rw [List.flatten_cons, Nat.zero_mul, Nat.zero_add,
        List.set_append_left _ _ (by omega)]
    | succ r' =>
      have hrow : row.length = w := hrect row (List.mem_cons_self ..)
      have hmul : (r' + 1) * w = r' * w + w := by ring
      have hidx : (r' + 1) * w + c - row.length = r' * w + c := by
        rw [hrow, hmul]
        omega
      show (row :: (rest.set r' ((rest.getD r' []).set c v))).flatten
        = (row ++ rest.flatten).set ((r' + 1) * w + c) v
      rw [List.flatten_cons,
        List.set_append_right _ _ (by rw [hrow, hmul]; omega), hidx,
        ih r' (fun row h => hrect row (List.mem_cons_of_mem _ h)) (by simpa using hr)]

lemma rect_set (g : NGrid) (w r c : Nat) (v : Bool)
    (hrect : ∀ row ∈ g, row.length = w) (hr : r < g.length) :
    ∀ row ∈ g.set r ((g.getD r []).set c v), row.length = w := by
  intro row hrow
  rcases List.mem_or_eq_of_mem_set hrow with hmem | heq
  · exact hrect row hmem
  · rw [heq, List.length_set, List.getD_eq_getElem g [] hr]
    exact hrect _ (List.getElem_mem hr)

lemma rel_set (d : Nat × Nat) (g : NGrid) (bg : BGrid) (p : Pos) (v : Bool)
    (hrel : RelNB d g bg) (h1 : p.1 < d.1) (h2 : p.2 < d.2) :
    RelNB d (ngSet g p v) (bg.set p v) := by
  obtain ⟨hs, hl, hrect, hgrid⟩ := hrel
  refine ⟨hs, by rw [ngSet, List.length_set, hl], rect_set g d.2 p.1 p.2 v hrect (by omega), ?_⟩
  show bg.grid.set (p.1 * bg.stride + p.2) v = (ngSet g p v).flatten
  rw [hgrid, hs, ngSet, flatten_set g d.2 p.1 p.2 v hrect (by omega) h2]

lemma rel_with (d : Nat × Nat) (ps : List Pos) (g : NGrid) (bg : BGrid)
    (hrel : RelNB d g bg)
    (hps : ∀ p ∈ ps, p.1 < d.1 ∧ p.2 < d.2) :
    RelNB d (ngWith g ps) (bg.with_indices ps) := by
  induction ps generalizing g bg with
  | nil => exact hrel
  | cons p rest ih =>
    have hp := hps p (List.mem_cons_self ..)
    exact ih (ngSet g p true) (bg.set p true)
      (rel_set d g bg p true hrel hp.1 hp.2)
      (fun q hq => hps q (List.mem_cons_of_mem _ hq))

lemma flatten_zipWith (f : Bool → Bool → Bool) (g h : NGrid) (w : Nat)
    (hg : ∀ row ∈ g, row.length = w) (hh : ∀ row ∈ h, row.length = w) :
    (List.zipWith (List.zipWith f) g h).flatten = List.zipWith f g.flatten h.flatten := by
  induction g generalizing h with
  | nil => simp
  | cons r1 t1 ih =>
    cases h with
    | nil => simp
    | cons r2 t2 =>
      rw [List.zipWith_cons_cons, List.flatten_cons, List.flatten_cons, List.flatten_cons,
        List.zipWith_append _ _ _ _ _
          (by rw [hg r1 (List.mem_cons_self ..), hh r2 (List.mem_cons_self ..)]),
        ih t2 (fun row hr => hg row (List.mem_cons_of_mem _ hr))
          (fun row hr => hh row (List.mem_cons_of_mem _ hr))]

lemma rect_zipWith (f : Bool → Bool → Bool) (g h : NGrid) (w : Nat)
    (hg : ∀ row ∈ g, row.length = w) (hh : ∀ row ∈ h, row.length = w) :
    ∀ row ∈ List.zipWith (List.zipWith f) g h, row.length = w := by
  induction g generalizing h with
  | nil => simp
  | cons r1 t1 ih =>
    cases h with
    | nil => simp
    | cons r2 t2 =>
      intro row hrow
      rw [List.zipWith_cons_cons] at hrow
      rcases List.mem_cons.mp hrow with heq | hmem
      · rw [heq, List.length_zipWith, hg r1 (List.mem_cons_self ..),
          hh r2 (List.mem_cons_self ..)]
        omega
      · exact ih t2 (fun row hr => hg row (List.mem_cons_of_mem _ hr))
          (fun row hr => hh row (List.mem_cons_of_mem _ hr)) row hmem

lemma rel_and (d : Nat × Nat) (g1 g2 : NGrid) (b1 b2 : BGrid)
    (h1 : RelNB d g1 b1) (h2 : RelNB d g2 b2) :
    RelNB d (ngAnd g1 g2) (b1.and b2) := by
  obtain ⟨hs1, hl1, hrect1, hgrid1⟩ := h1
  obtain ⟨hs2, hl2, hrect2, hgrid2⟩ := h2
  refine ⟨hs1, ?_, rect_zipWith Bool.and g1 g2 d.2 hrect1 hrect2, ?_⟩
  · show (List.zipWith _ g1 g2).length = d.1
    rw [List.length_zipWith, hl1, hl2]
    omega
  · show List.zipWith Bool.and b1.grid b2.grid = (ngAnd g1 g2).flatten
    rw [hgrid1, hgrid2, ngAnd, flatten_zipWith Bool.and g1 g2 d.2 hrect1 hrect2]

lemma rel_or (d : Nat × Nat) (g1 g2 : NGrid) (b1 b2 : BGrid)
    (h1 : RelNB d g1 b1) (h2 : RelNB d g2 b2) :
    RelNB d (ngOr g1 g2) (b1.or b2) := by
  obtain ⟨hs1, hl1, hrect1, hgrid1⟩ := h1
  obtain ⟨hs2, hl2, hrect2, hgrid2⟩ := h2
  refine ⟨hs1, ?_, rect_zipWith Bool.or g1 g2 d.2 hrect1 hrect2, ?_⟩
  · show (List.zipWith _ g1 g2).length = d.1
    rw [List.length_zipWith, hl1, hl2]
    omega
  · show List.zipWith Bool.or b1.grid b2.grid = (ngOr g1 g2).flatten
    rw [hgrid1, hgrid2, ngOr, flatten_zipWith Bool.or g1 g2 d.2 hrect1 hrect2]

lemma rel_not (d : Nat × Nat) (g : NGrid) (bg : BGrid) (h : RelNB d g bg) :
    RelNB d (ngNot g) (bg.notg) := by
  obtain ⟨hs, hl, hrect, hgrid⟩ := h
  refine ⟨hs, by rw [ngNot, List.length_map, hl], ?_, ?_⟩
  · intro row hrow
    obtain ⟨row', hrow', rfl⟩ := List.mem_map.mp hrow
    rw [List.length_map]
    exact hrect row' hrow'
  · show bg.grid.map Bool.not = (ngNot g).flatten
    rw [hgrid, ngNot, List.map_flatten]

/-- The simulation: interpreting any well-formed operation sequence in the
two implementations produces related grids. -/
lemma rel_eval (d : Nat × Nat) (e : GExpr) (hwf : wfE d e = true) :
    RelNB d (evalN d e) (evalB d e) := by
  induction e with
  | emptyE => exact rel_empty d
  | setE e p v ih =>
    rw [wfE, Bool.and_eq_true, Bool.and_eq_true, decide_eq_true_eq, decide_eq_true_eq] at hwf
    exact rel_set d _ _ p v (ih hwf.1) hwf.2.1 hwf.2.2
  | withE e ps ih =>
    rw [wfE, Bool.and_eq_true] at hwf
    refine rel_with d ps _ _ (ih hwf.1) ?_
    intro p hp
    have := List.all_eq_true.mp hwf.2 p hp
    rw [Bool.and_eq_true, decide_eq_true_eq, decide_eq_true_eq] at this
    exact this
  | andE e1 e2 ih1 ih2 =>
    rw [wfE, Bool.and_eq_true] at hwf
    exact rel_and d _ _ _ _ (ih1 hwf.1) (ih2 hwf.2)
  | orE e1 e2 ih1 ih2 =>
    rw [wfE, Bool.and_eq_true] at hwf
    exact rel_or d _ _ _ _ (ih1 hwf.1) (ih2 hwf.2)
  | notE e ih =>
    rw [wfE] at hwf
    exact rel_not d _ _ (ih hwf)

lemma getD_flatten (g : NGrid) (w r c : Nat)
    (hrect : ∀ row ∈ g, row.length = w) (hr : r < g.length) (hc : c < w) :
    g.flatten.getD (r * w + c) false = (g.getD r []).getD c false := by
  induction g generalizing r with
  | nil => simp at hr
  | cons row rest ih =>
    cases r with
    | zero =>
      have hrow : row.length = w := hrect row (List.mem_cons_self ..)
      show (row ++ rest.flatten).getD (0 * w + c) false = row.getD c false
      rw [Nat.zero_mul, Nat.zero_add, List.getD_append _ _ _ _ (by omega)]
    | succ r' =>
      have hrow : row.length = w := hrect row (List.mem_cons_self ..)
      have hmul : (r' + 1) * w = r' * w + w := by ring
      have hidx : (r' + 1) * w + c - row.length = r' * w + c := by
        rw [hrow, hmul]
        omega
      show (row ++ rest.flatten).getD ((r' + 1) * w + c) false
        = (rest.getD r' []).getD c false
      rw [List.getD_append_right _ _ _ _ (by rw [hrow, hmul]; omega), hidx]
      exact ih r' (fun row h => hrect row (List.mem_cons_of_mem _ h)) (by simpa using hr)

lemma row_indices_shift (w n : Nat) (row : List Bool) :
    ∀ j, j + row.length ≤ w →
      (List.enumFrom (n * w + j) row).filterMap
          (fun q => if q.2 then some (q.1 / w, q.1 % w) else none)
        = (List.enumFrom j row).filterMap (fun q => if q.2 then some (n, q.1) else none) := by
  induction row with
  | nil => intro j h; simp
  | cons b bs ih =>
    intro j h
    rw [List.length_cons] at h
    have hj : j < w := by omega
    have hw : 0 < w := by omega
    have hdiv : (n * w + j) / w = n := by
      rw [Nat.add_comm (n * w) j, Nat.add_mul_div_right _ _ hw, Nat.div_eq_of_lt hj]
      omega
    have hmod : (n * w + j) % w = j := by
      rw [Nat.add_comm (n * w) j, Nat.add_mul_mod_self_right, Nat.mod_eq_of_lt hj]
    have hsh : n * w + j + 1 = n * w + (j + 1) := by omega
    rw [List.enumFrom_cons, List.enumFrom_cons, List.filterMap_cons, List.filterMap_cons]
    cases b with
    | false =>
      show (List.enumFrom (n * w + j + 1) bs).filterMap _
        = (List.enumFrom (j + 1) bs).filterMap _
      rw [hsh]
      exact ih (j + 1) (by omega)
    | true =>
      show ((n * w + j) / w, (n * w + j) % w) :: (List.enumFrom (n * w + j + 1) bs).filterMap _
        = (n, j) :: (List.enumFrom (j + 1) bs).filterMap _
      rw [hdiv, hmod, hsh, ih (j + 1) (by omega)]

lemma flatten_indices (w : Nat) :
    ∀ (g : NGrid) (n : Nat), 0 < w → (∀ row ∈ g, row.length = w) →
      (List.enumFrom (n * w) g.flatten).filterMap
          (fun q => if q.2 then some (q.1 / w, q.1 % w) else none)
        = (List.enumFrom n g).flatMap
          (fun r => r.2.enum.filterMap (fun c => if c.2 then some (r.1, c.1) else none)) := by
  intro g
  induction g with
  | nil =>
    intro n hw hrect
    simp
  | cons row rest ih =>
    intro n hw hrect
    have hrow : row.length = w := hrect row (List.mem_cons_self ..)
    rw [List.flatten_cons, List.enumFrom_append, List.filterMap_append,
      List.enumFrom_cons, List.flatMap_cons]
    congr 1
    · have h0 := row_indices_shift w n row 0 (by omega)
      rw [Nat.add_zero] at h0
      show (List.enumFrom (n * w) row).filterMap _
        = row.enum.filterMap (fun c => if c.2 then some (n, c.1) else none)
      rw [h0, List.enum_eq_enumFrom]
    · rw [hrow]
      have hstep : n * w + w = (n + 1) * w := by ring
      rw [hstep]
      exact ih (n + 1) hw (fun r hr => hrect r (List.mem_cons_of_mem _ hr))

lemma rel_card (d : Nat × Nat) (g : NGrid) (bg : BGrid) (h : RelNB d g bg) :
    ngCard g = bg.size := by
  show g.flatten.count true = bg.grid.count true
  rw [h.2.2.2]

lemma rel_get (d : Nat × Nat) (g : NGrid) (bg : BGrid) (h : RelNB d g bg)
    (p : Pos) (h1 : p.1 < d.1) (h2 : p.2 < d.2) : ngGet g p = bg.get p := by
  obtain ⟨hs, hl, hrect, hgrid⟩ := h
  show (g.getD p.1 []).getD p.2 false = bg.grid.getD (p.1 * bg.stride + p.2) false
  rw [hgrid, hs, getD_flatten g d.2 p.1 p.2 hrect (by omega) h2]

lemma rel_indices (d : Nat × Nat) (g : NGrid) (bg : BGrid) (h : RelNB d g bg)
    (hw : 0 < d.2) : ngIndices g = bg.indices := by
  obtain ⟨hs, hl, hrect, hgrid⟩ := h
  unfold ngIndices BGrid.indices
  rw [hgrid, hs, List.enum_eq_enumFrom, List.enum_eq_enumFrom]
  have hmain := flatten_indices d.2 g 0 hw hrect
  rw [Nat.zero_mul] at hmain
  exact hmain.symm

/-- C10: the dense (ndarray-backed) and packed (bitvec-backed) BitGrid
implementations are observationally equivalent: interpreting any sequence of
`empty`, `set`, `with_indices`, AND, OR, NOT operations over same-dimension
grids (width and height at least 1, written positions in bounds) in both
implementations yields the same cardinality, the same list of set positions
in the same order, and the same bit at every in-bounds position. -/
theorem c10_equiv (d : Nat × Nat) (e : GExpr)
    (_h1 : 0 < d.1) (h2 : 0 < d.2) (hwf : wfE d e = true) :
    ngCard (evalN d e) = (evalB d e).size ∧
    ngIndices (evalN d e) = (evalB d e).indices ∧
    (∀ p : Pos, p.1 < d.1 → p.2 < d.2 → ngGet (evalN d e) p = (evalB d e).get p) := by
  have hrel := rel_eval d e hwf
  exact ⟨rel_card d _ _ hrel, rel_indices d _ _ hrel h2,
    fun p hp1 hp2 => rel_get d _ _ hrel p hp1 hp2⟩

/-- A sample operation sequence over a 2×2 grid: complement a single set
bit, then or with a grid built by `with_indices`. -/
def wexpr : GExpr :=
  .orE (.notE (.setE .emptyE (0, 1) true)) (.withE .emptyE [(1, 0)])

/-- C10 (witness): the equivalence evaluated on `wexpr` over a 2×2 grid. -/
theorem c10_witness :
    ngCard (evalN (2, 2) wexpr) = (evalB (2, 2) wexpr).size ∧
    ngIndices (evalN (2, 2) wexpr) = (evalB (2, 2) wexpr).indices ∧
    (∀ p : Pos, p.1 < 2 → p.2 < 2 → ngGet (evalN (2, 2) wexpr) p = (evalB (2, 2) wexpr).get p) :=
  c10_equiv (2, 2) wexpr (by decide) (by decide) (by decide)

end Mines
